import Mathlib

set_option linter.unusedVariables false

/-!
Shallow embedding of the TexImage image-processing core of
nvidia-texture-tools (src/nvtt/TexImage.cpp).

32-bit floats are modelled as exact rationals.  A planar float image is
modelled as a flat function from indices to rationals: pixel (x, y) of
channel c lives at index c*(w*h) + y*w + x, exactly the memory layout of
nv::FloatImage (four contiguous channel planes of w*h floats each).
The reference-counted TexImage handles are modelled by a heap of
TexImage::Private cells addressed by natural-number indices; a handle is
such an index, and two handles sharing one Private are two occurrences of
the same index with refCount greater than one.
-/

/-- Modelled from the spec: nv::nextPowerOfTwo (nvcore, not under src/):
the least power of two greater than or equal to v.  This matches the
source comment on previousPowerOfTwo: 1 -> 1, 2 -> 2, 3 -> 2, 4 -> 4, 5 -> 4. -/
def nextPowerOfTwo (v : ℕ) : ℕ := 2 ^ Nat.clog 2 v

/-- previousPowerOfTwo, from TexImage.cpp lines 47-50:
return nextPowerOfTwo(v + 1) / 2. -/
def previousPowerOfTwo (v : ℕ) : ℕ := nextPowerOfTwo (v + 1) / 2

/-- nearestPowerOfTwo, from TexImage.cpp lines 52-65:
np2 if np2 - v <= v - pp2 (unsigned subtraction), else pp2. -/
def nearestPowerOfTwo (v : ℕ) : ℕ :=
  let np2 := nextPowerOfTwo v
  let pp2 := previousPowerOfTwo v
  if np2 - v ≤ v - pp2 then np2 else pp2

/-- nvtt::RoundMode (enumeration from the public header, values used by
getTargetExtent). -/
inductive RoundMode
  | noRound
  | toNextPowerOfTwo
  | toNearestPowerOfTwo
  | toPreviousPowerOfTwo
deriving DecidableEq

/-- nvtt::TextureType (enumeration from the public header). -/
inductive TextureType
  | tex2D
  | texCube
  | tex3D
deriving DecidableEq

/-- nv::getTargetExtent, from TexImage.cpp lines 122-171.  Extents are
naturals (the function asserts w, h, d > 0); maxExtent is a C int, kept
as an integer because the guards compare it with 0. -/
def getTargetExtent (w h d : ℕ) (maxExtent : ℤ) (roundMode : RoundMode)
    (textureType : TextureType) : ℕ × ℕ × ℕ :=
  let maxExtent2 : ℤ :=
    if roundMode ≠ RoundMode.noRound ∧ 0 < maxExtent then
      ((previousPowerOfTwo maxExtent.toNat : ℕ) : ℤ)
    else maxExtent
  let m : ℕ := max (max w h) d
  let s : ℕ × ℕ × ℕ :=
    if 0 < maxExtent2 ∧ (m : ℤ) > maxExtent2 then
      (max (w * maxExtent2.toNat / m) 1,
       max (h * maxExtent2.toNat / m) 1,
       max (d * maxExtent2.toNat / m) 1)
    else (w, h, d)
  let t : ℕ × ℕ × ℕ :=
    if textureType = TextureType.tex2D then (s.1, s.2.1, 1)
    else if textureType = TextureType.texCube then
      ((s.1 + s.2.1) / 2, (s.1 + s.2.1) / 2, 1)
    else s
  match roundMode with
  | RoundMode.noRound => t
  | RoundMode.toNextPowerOfTwo =>
      (nextPowerOfTwo t.1, nextPowerOfTwo t.2.1, nextPowerOfTwo t.2.2)
  | RoundMode.toNearestPowerOfTwo =>
      (nearestPowerOfTwo t.1, nearestPowerOfTwo t.2.1, nearestPowerOfTwo t.2.2)
  | RoundMode.toPreviousPowerOfTwo =>
      (previousPowerOfTwo t.1, previousPowerOfTwo t.2.1, previousPowerOfTwo t.2.2)

/-- nv::FloatImage, reduced to what TexImage.cpp uses: a width, a height
and one flat storage of 4*w*h floats (four planar channels).  Storage is a
total function so that out-of-range behaviour of the source's raw pointer
arithmetic can be reproduced index by index. -/
structure FloatImage where
  width : ℕ
  height : ℕ
  mem : ℕ → ℚ

/-- Flat index of pixel (x, y) in channel c: FloatImage stores channel c
as the half-open range [c*w*h, (c+1)*w*h), row-major inside a channel. -/
def pixIdx (w h c y x : ℕ) : ℕ := c * (w * h) + y * w + x

/-- FloatImage::pixel(x, y, c). -/
def FloatImage.pixel (img : FloatImage) (x y c : ℕ) : ℚ :=
  img.mem (pixIdx img.width img.height c y x)

/-- nvtt::WrapMode. -/
inductive WrapMode
  | clampWrap
  | mirrorWrap
  | repeatWrap
deriving DecidableEq

/-- nvtt::AlphaMode. -/
inductive AlphaMode
  | alphaNone
  | transparency
  | premultiplied
deriving DecidableEq

/-- TexImage::Private: the reference-counted shared state of a handle
(refCount from nv::RefCounted, plus image pointer and metadata). -/
structure TexImagePrivate where
  refCount : ℕ
  image : Option FloatImage
  wrapMode : WrapMode
  alphaMode : AlphaMode
  isNormalMap : Bool

/-- The heap of Private cells.  A TexImage handle is an index into this
list; several handles sharing one Private are several uses of one index. -/
structure Heap where
  cells : List TexImagePrivate

def emptyPrivate : TexImagePrivate :=
  ⟨0, none, WrapMode.clampWrap, AlphaMode.alphaNone, false⟩

def getCell (hp : Heap) (i : ℕ) : TexImagePrivate := hp.cells.getD i emptyPrivate

def setCell (hp : Heap) (i : ℕ) (c : TexImagePrivate) : Heap := ⟨hp.cells.set i c⟩

def updateImage (hp : Heap) (i : ℕ) (img : FloatImage) : Heap :=
  setCell hp i { getCell hp i with image := some img }

/-- TexImage::detach, lines 198-207: if the Private is shared
(refCount > 1), release it and attach to a fresh copy with refCount 1.
The Private copy constructor is modelled from the spec (TexImage.h is not
under src/): it clones the underlying image and metadata (deep copy).
Returns the new heap and the handle's new cell index. -/
def detach (hp : Heap) (hIdx : ℕ) : Heap × ℕ :=
  if 1 < (getCell hp hIdx).refCount then
    let hp1 := setCell hp hIdx
      { getCell hp hIdx with refCount := (getCell hp hIdx).refCount - 1 }
    (⟨hp1.cells ++ [{ getCell hp1 hIdx with refCount := 1 }]⟩, hp1.cells.length)
  else (hp, hIdx)

/-- TexImage::setWrapMode, lines 209-216. -/
def setWrapMode (hp : Heap) (hIdx : ℕ) (wm : WrapMode) : Heap × ℕ :=
  if (getCell hp hIdx).wrapMode ≠ wm then
    let d := detach hp hIdx
    (setCell d.1 d.2 { getCell d.1 d.2 with wrapMode := wm }, d.2)
  else (hp, hIdx)

/-- TexImage::copyChannel(srcImage, srcChannel, dstChannel),
lines 1309-1329.  Channel indices are C ints.  Mirrors the source
faithfully, including the order of operations: the destination image
pointer dst is captured BEFORE detach() and the memcpy is performed
through that stale pointer afterwards, i.e. into the image of the
ORIGINAL cell dstIdx, while the handle itself has moved to the detached
copy (the returned index). -/
def copyChannel (hp : Heap) (dstIdx srcIdx : ℕ) (srcChannel dstChannel : ℤ) :
    Bool × Heap × ℕ :=
  if srcChannel < 0 ∨ 3 < srcChannel ∨ dstChannel < 0 ∨ 3 < dstChannel then
    (false, hp, dstIdx)
  else
    match (getCell hp dstIdx).image, (getCell hp srcIdx).image with
    | some dst, some src =>
      if dst.width ≠ src.width ∨ dst.height ≠ src.height then (false, hp, dstIdx)
      else
        let d := detach hp dstIdx
        let count := src.width * src.height
        let dstOff := dstChannel.toNat * count
        let srcOff := srcChannel.toNat * count
        let newDst : FloatImage :=
          { dst with mem := fun k =>
              if dstOff ≤ k ∧ k < dstOff + count then src.mem (srcOff + (k - dstOff))
              else dst.mem k }
        (true, updateImage d.1 dstIdx newDst, d.2)
    | _, _ => (false, hp, dstIdx)

/-- The result of nvtt::rmsError.  The source returns a float:
FLT_MAX on failure, and float(sqrt(mse/count)) otherwise; the success
case is represented by the exact rational mse/count under the square
root (sqrt is strictly monotone and sqrt 0 = 0, so all claims about the
returned value factor through this rational). -/
inductive RmsResult
  | fltMax
  | sqrtVal (msePerPixel : ℚ)
deriving DecidableEq

/-- nvtt::rmsError(reference, image), lines 1334-1379.  The double
accumulator is modelled exactly (rationals). -/
def rmsError (reference image : TexImagePrivate) : RmsResult :=
  match image.image, reference.image with
  | some img, some ref =>
    if img.width ≠ ref.width ∨ img.height ≠ ref.height then RmsResult.fltMax
    else
      let count := img.width * img.height
      let mse := (List.range count).foldl (fun acc i =>
        let r0 := img.mem (i + count * 0)
        let g0 := img.mem (i + count * 1)
        let b0 := img.mem (i + count * 2)
        let r1 := ref.mem (i + count * 0)
        let g1 := ref.mem (i + count * 1)
        let b1 := ref.mem (i + count * 2)
        let a1 := ref.mem (i + count * 3)
        let r := r0 - r1
        let g := g0 - g1
        let b := b0 - b1
        if reference.alphaMode = AlphaMode.transparency then
          acc + r * r * a1 + g * g * a1 + b * b * a1
        else
          acc + r * r + g * g + b * b) 0
      RmsResult.sqrtVal (mse / count)
  | _, _ => RmsResult.fltMax

/-- TexImage::resize(w, h, filter, filterWidth, params), lines 606-672.
The filter dispatch all funnels into FloatImage::resize (nvimage, not
under src/), abstracted here as the resample parameter; the guard and the
copy-on-write structure are the source's. -/
def resize (resample : FloatImage → ℕ → ℕ → FloatImage) (hp : Heap) (hIdx : ℕ)
    (w h : ℕ) : Heap × ℕ :=
  match (getCell hp hIdx).image with
  | none => (hp, hIdx)
  | some img =>
    if w = img.width ∧ h = img.height then (hp, hIdx)
    else
      let d := detach hp hIdx
      (updateImage d.1 d.2 (resample img w h), d.2)

/-- TexImage::buildNextMipmap(filter, filterWidth, params), lines 705-766.
FloatImage::downSample / fastDownSample (nvimage, not under src/) are
abstracted as the downSample parameter; the guard and the copy-on-write
structure are the source's. -/
def buildNextMipmap (downSample : FloatImage → FloatImage) (hp : Heap)
    (hIdx : ℕ) : Bool × Heap × ℕ :=
  match (getCell hp hIdx).image with
  | none => (false, hp, hIdx)
  | some img =>
    if img.width = 1 ∨ img.height = 1 then (false, hp, hIdx)
    else
      let d := detach hp hIdx
      (true, updateImage d.1 d.2 (downSample img), d.2)

/-- Modelled from the spec: nvtt::InputFormat (public header, not under
src/) is a C enumeration; the entry points compare it against the three
listed values with no default branch, and a C enum parameter can carry
any integer value, so the parameter is modelled as a natural number. -/
def InputFormat_BGRA_8UB : ℕ := 0

def InputFormat_RGBA_16F : ℕ := 1

def InputFormat_RGBA_32F : ℕ := 2

/-- The untyped data pointer of the interleaved setImage2D overload, seen
through the three reinterpret casts the source performs: bgra i is the
Color32 src[i] as its (r, g, b, a) byte fields; half16 j is the uint16
src[j]; float32 j is the float src[j]. -/
structure InterleavedData where
  bgra : ℕ → ℕ × ℕ × ℕ × ℕ
  half16 : ℕ → ℕ
  float32 : ℕ → ℚ

/-- The four untyped plane pointers of the planar setImage2D overload,
seen through the casts the source performs; the first argument selects
the plane (0 = r, 1 = g, 2 = b, 3 = a). -/
structure PlanarData where
  byte : ℕ → ℕ → ℕ
  half16 : ℕ → ℕ → ℕ
  float32 : ℕ → ℕ → ℚ

/-- TexImage::setImage2D(InputFormat, w, h, data) (interleaved),
lines 333-402.  half2float abstracts nv::half_to_float (nvmath, not under
src/); fresh is the contents of the freshly allocated uninitialized
buffer of FloatImage::allocate(4, w, h) (nvimage, not under src/,
modelled from the spec as a fresh 4-channel w*h allocation). -/
def setImage2D (half2float : ℕ → ℚ) (fresh : ℕ → ℚ) (hp : Heap) (hIdx : ℕ)
    (format : ℕ) (w h : ℕ) (data : InterleavedData) : Bool × Heap × ℕ :=
  let d := detach hp hIdx
  let count := w * h
  let base : FloatImage := ⟨w, h, fresh⟩
  let filled : FloatImage :=
    if format = InputFormat_BGRA_8UB then
      { base with mem := fun k =>
          if k < 4 * count then
            let s := data.bgra (k % count)
            let c := k / count
            (if c = 0 then (s.1 : ℚ)
             else if c = 1 then (s.2.1 : ℚ)
             else if c = 2 then (s.2.2.1 : ℚ)
             else (s.2.2.2 : ℚ)) / 255
          else fresh k }
    else if format = InputFormat_RGBA_16F then
      { base with mem := fun k =>
          if k < 4 * count then half2float (data.half16 (4 * (k % count) + k / count))
          else fresh k }
    else if format = InputFormat_RGBA_32F then
      { base with mem := fun k =>
          if k < 4 * count then data.float32 (4 * (k % count) + k / count)
          else fresh k }
    else base
  (true, updateImage d.1 d.2 filled, d.2)

/-- TexImage::setImage2D(InputFormat, w, h, r, g, b, a) (planar),
lines 404-473.  Same modelling conventions as the interleaved overload. -/
def setImage2DPlanar (half2float : ℕ → ℚ) (fresh : ℕ → ℚ) (hp : Heap)
    (hIdx : ℕ) (format : ℕ) (w h : ℕ) (data : PlanarData) : Bool × Heap × ℕ :=
  let d := detach hp hIdx
  let count := w * h
  let base : FloatImage := ⟨w, h, fresh⟩
  let filled : FloatImage :=
    if format = InputFormat_BGRA_8UB then
      { base with mem := fun k =>
          if k < 4 * count then (data.byte (k / count) (k % count) : ℚ) / 255
          else fresh k }
    else if format = InputFormat_RGBA_16F then
      { base with mem := fun k =>
          if k < 4 * count then half2float (data.half16 (k / count) (k % count))
          else fresh k }
    else if format = InputFormat_RGBA_32F then
      { base with mem := fun k =>
          if k < 4 * count then data.float32 (k / count) (k % count)
          else fresh k }
    else base
  (true, updateImage d.1 d.2 filled, d.2)

/-- TexImage::toYCoCg, lines 1091-1118: per pixel i,
Y = (2G+R+B)*0.25, Co = R-B, Cg = (2G-R-B)*0.5, stored as
r = Co, g = Cg, b = 1.0, a = Y. -/
def toYCoCg (img : FloatImage) : FloatImage :=
  let count := img.width * img.height
  { img with mem := fun k =>
      if k < 4 * count then
        let i := k % count
        let R := img.mem (i + count * 0)
        let G := img.mem (i + count * 1)
        let B := img.mem (i + count * 2)
        let c := k / count
        if c = 0 then R - B
        else if c = 1 then (2 * G - R - B) * (1 / 2)
        else if c = 2 then 1
        else (2 * G + R + B) * (1 / 4)
      else img.mem k }

/-- TexImage::fromYCoCg, lines 1183-1214: per pixel i,
Co = r, Cg = g, scale = b, Y = a; Co *= scale; Cg *= scale;
R = Y + Co - Cg, G = Y + Cg, B = Y - Co - Cg, a = 1. -/
def fromYCoCg (img : FloatImage) : FloatImage :=
  let count := img.width * img.height
  { img with mem := fun k =>
      if k < 4 * count then
        let i := k % count
        let Co := img.mem (i + count * 0)
        let Cg := img.mem (i + count * 1)
        let scale := img.mem (i + count * 2)
        let Y := img.mem (i + count * 3)
        let Co2 := Co * scale
        let Cg2 := Cg * scale
        let c := k / count
        if c = 0 then Y + Co2 - Cg2
        else if c = 1 then Y + Cg2
        else if c = 2 then Y - Co2 - Cg2
        else 1
      else img.mem k }

/-- Modelled from the spec: PixelFormat::quantizeCeil (nvimage, not under
src/): quantize upward to the given number of bits of precision, ceiling
quantization that never under-represents the input (the source asserts
scale >= m right after the call).  The exponentBits argument of the
source call site is kept but plays no role in the rational model. -/
def quantizeCeil (m : ℚ) (bits exponentBits : ℕ) : ℚ :=
  (⌈m * 2 ^ bits⌉ : ℚ) / 2 ^ bits

/-- The list of (outer, inner) loop counter pairs for a pair of nested
for loops of the given bounds, outer counter first, in execution order. -/
def loopPairs (outerBound innerBound : ℕ) : List (ℕ × ℕ) :=
  (List.range outerBound).flatMap (fun j => (List.range innerBound).map (fun i => (j, i)))

/-- The per-block maximum of blockScaleCoCg, lines 1144-1156:
m = 1/256 maxed with |Co| and |Cg| over the 4x4 block at block
coordinates (bi, bj), with the source's coordinate clamp
x = min(bi*4+i, w), y = min(bj*4+j, h). -/
def blockM (w h : ℕ) (mem : ℕ → ℚ) (bj bi : ℕ) : ℚ :=
  (loopPairs 4 4).foldl (fun acc ji =>
    let x := min (bi * 4 + ji.2) w
    let y := min (bj * 4 + ji.1) h
    let Co := mem (pixIdx w h 0 y x)
    let Cg := mem (pixIdx w h 1 y x)
    max (max acc |Co|) |Cg|) (1 / 256)

/-- The write-back loop of blockScaleCoCg, lines 1162-1178: sequentially,
for each (j, i) in the block, Co /= scale, Cg /= scale, and the blue
channel is set to scale, with the same coordinate clamp as blockM. -/
def scaleBlock (w h : ℕ) (mem : ℕ → ℚ) (bj bi : ℕ) (scale : ℚ) : ℕ → ℚ :=
  (loopPairs 4 4).foldl (fun mem2 ji =>
    let x := min (bi * 4 + ji.2) w
    let y := min (bj * 4 + ji.1) h
    let i0 := pixIdx w h 0 y x
    let i1 := pixIdx w h 1 y x
    let i2 := pixIdx w h 2 y x
    let mem3 := Function.update mem2 i0 (mem2 i0 / scale)
    let mem4 := Function.update mem3 i1 (mem3 i1 / scale)
    Function.update mem4 i2 scale) mem

/-- TexImage::blockScaleCoCg(bits, threshold), lines 1128-1181: iterate
over max(1, w/4) x max(1, h/4) blocks; per block compute m, quantize it
upward and divide the block's Co/Cg by the result, storing it in blue.
The threshold parameter is unused by the source (marked with a TODO). -/
def blockScaleCoCg (img : FloatImage) (bits : ℕ) (threshold : ℚ) : FloatImage :=
  let w := img.width
  let h := img.height
  let bw := max 1 (w / 4)
  let bh := max 1 (h / 4)
  { img with mem := (loopPairs bh bw).foldl (fun mem bjbi =>
      let m := blockM w h mem bjbi.1 bjbi.2
      let scale := quantizeCeil m bits 8
      scaleBlock w h mem bjbi.1 bjbi.2 scale) img.mem }

/-- A 1x1 RGBA image with pixel (R,G,B,A) = (1,0,0,1), flat layout. -/
def imgC1 : FloatImage := ⟨1, 1, fun k => if k = 0 then 1 else if k = 3 then 1 else 0⟩

/-- Channel-0 contents of the shared destination image of the
copy-on-write scenario: (R,G,B,A) = (1,0,0,0) on a 1x1 image. -/
def memA : ℕ → ℚ := fun k => if k = 0 then 1 else 0

/-- Contents of the source image of the copy-on-write scenario: all 5. -/
def memS : ℕ → ℚ := fun _ => 5

/-- Copy-on-write scenario: cell 0 is a Private shared by two handles
(refCount 2) holding a 1x1 image; cell 1 is a privately owned 1x1 source
image.  Handle A and handle B are both the index 0. -/
def hpShared : Heap :=
  ⟨[⟨2, some ⟨1, 1, memA⟩, WrapMode.clampWrap, AlphaMode.alphaNone, false⟩,
    ⟨1, some ⟨1, 1, memS⟩, WrapMode.clampWrap, AlphaMode.alphaNone, false⟩]⟩

/-- A heap with a single unshared handle owning a 2x3 image of zeros. -/
def hpSingle : Heap :=
  ⟨[⟨1, some ⟨2, 3, fun _ => 0⟩, WrapMode.clampWrap, AlphaMode.alphaNone, false⟩]⟩

/-- A heap with a single unshared handle owning a 4x1 image of zeros. -/
def hpWide : Heap :=
  ⟨[⟨1, some ⟨4, 1, fun _ => 0⟩, WrapMode.clampWrap, AlphaMode.alphaNone, false⟩]⟩

/-- All-zero interleaved raw input data. -/
def idataZero : InterleavedData := ⟨fun _ => (0, 0, 0, 0), fun _ => 0, fun _ => 0⟩

/-- All-zero planar raw input data. -/
def pdataZero : PlanarData := ⟨fun _ _ => 0, fun _ _ => 0, fun _ _ => 0⟩

/-- An arbitrary fresh-allocation content function (all zeros). -/
def freshZero : ℕ → ℚ := fun _ => 0

/-- A 1x1 Private with all four channels equal to 1/2, transparency
alpha mode (reference side of the rmsError witness). -/
def privHalf : TexImagePrivate :=
  ⟨1, some ⟨1, 1, fun _ => 1 / 2⟩, WrapMode.clampWrap, AlphaMode.transparency, false⟩

/-- A 5x4 image whose channel 0 is 2 at pixel (4,0) and otherwise zero:
pixel (4,0) lies in the partial right-edge 4x4 block that
blockScaleCoCg's loop over max(1, w/4) block columns never visits. -/
def imgPartial : FloatImage := ⟨5, 4, fun k => if k = 4 then 2 else 0⟩

/-- A 4x4 all-zero image (witness input for the amended block-scale claim). -/
def imgFour : FloatImage := ⟨4, 4, fun _ => 0⟩

/-- The index set written by one iteration (j, i) of scaleBlock's inner
loop at block (bj, bi), for a full in-range block: the three channel
slots of the pixel (bi*4+i, bj*4+j). -/
def blockWriteSet (w h bj bi : ℕ) (ji : ℕ × ℕ) (k : ℕ) : Bool :=
  decide (k = pixIdx w h 0 (bj * 4 + ji.1) (bi * 4 + ji.2) ∨
    k = pixIdx w h 1 (bj * 4 + ji.1) (bi * 4 + ji.2) ∨
    k = pixIdx w h 2 (bj * 4 + ji.1) (bi * 4 + ji.2))

/-- The value one iteration of scaleBlock's inner loop leaves at an
index of its write set, as a function of the memory before the
iteration: scale itself in channel 2, the old value divided by scale in
channels 0 and 1. -/
def blockWriteVal (w h bj bi : ℕ) (s : ℚ) (ji : ℕ × ℕ) (k : ℕ)
    (mem : ℕ → ℚ) : ℚ :=
  if k = pixIdx w h 2 (bj * 4 + ji.1) (bi * 4 + ji.2) then s else mem k / s

/-- The index set written by the whole per-block body of blockScaleCoCg
at block b = (bj, bi): channels 0-2 of the 16 pixels of the block. -/
def blockSet (w h : ℕ) (b : ℕ × ℕ) (k : ℕ) : Bool :=
  (List.range 3).any (fun c => (List.range 4).any (fun j => (List.range 4).any (fun i =>
    decide (k = pixIdx w h c (b.1 * 4 + j) (b.2 * 4 + i)))))

/-- The value the per-block body of blockScaleCoCg leaves at an index of
its write set, as a function of the memory before the block was
processed. -/
def blockVal (w h bits : ℕ) (b : ℕ × ℕ) (k : ℕ) (mem : ℕ → ℚ) : ℚ :=
  if k / (w * h) = 2 then quantizeCeil (blockM w h mem b.1 b.2) bits 8
  else mem k / quantizeCeil (blockM w h mem b.1 b.2) bits 8

-- ## Theorems

theorem nextPowerOfTwo_one : nextPowerOfTwo 1 = 1 := by
  simp [nextPowerOfTwo, Nat.clog_one_right]

theorem previousPowerOfTwo_one : previousPowerOfTwo 1 = 1 := by
  have h2 : Nat.clog 2 2 = 1 := by
    have := Nat.clog_pow 2 1 (by norm_num)
    simpa using this
  simp [previousPowerOfTwo, nextPowerOfTwo, h2]

theorem nearestPowerOfTwo_one : nearestPowerOfTwo 1 = 1 := by
  simp [nearestPowerOfTwo, nextPowerOfTwo_one, previousPowerOfTwo_one]

theorem previousPowerOfTwo_le (v : ℕ) (hv : 0 < v) : previousPowerOfTwo v ≤ v := by
  unfold previousPowerOfTwo nextPowerOfTwo
  have hlt : 1 < v + 1 := by omega
  have hc : 0 < Nat.clog 2 (v + 1) := Nat.clog_pos (by norm_num) (by omega)
  have hpred : 2 ^ (Nat.clog 2 (v + 1) - 1) < v + 1 :=
    Nat.pow_pred_clog_lt_self (by norm_num) hlt
  have heq : 2 ^ Nat.clog 2 (v + 1) / 2 = 2 ^ (Nat.clog 2 (v + 1) - 1) := by
    conv_lhs => rw [show Nat.clog 2 (v + 1) = (Nat.clog 2 (v + 1) - 1) + 1 by omega]
    rw [pow_succ]
    exact Nat.mul_div_cancel _ (by norm_num)
  rw [heq]
  omega

theorem le_nextPowerOfTwo (v : ℕ) : v ≤ nextPowerOfTwo v :=
  Nat.le_pow_clog (by norm_num) v

/-- C6: for every v > 0, previousPowerOfTwo(v) <= v <= nextPowerOfTwo(v),
previousPowerOfTwo(v) = nextPowerOfTwo(v+1)/2, and nearestPowerOfTwo(v)
returns whichever of the two bounds is numerically closer to v, returning
the next power of two when the distances are equal. -/
theorem c6_powerOfTwo_bounds_nearest (v : ℕ) (hv : 0 < v) :
    previousPowerOfTwo v ≤ v ∧ v ≤ nextPowerOfTwo v ∧
    previousPowerOfTwo v = nextPowerOfTwo (v + 1) / 2 ∧
    nearestPowerOfTwo v =
      (if |(nextPowerOfTwo v : ℤ) - v| ≤ |(v : ℤ) - previousPowerOfTwo v|
       then nextPowerOfTwo v else previousPowerOfTwo v) := by
  have h1 : previousPowerOfTwo v ≤ v := previousPowerOfTwo_le v hv
  have h2 : v ≤ nextPowerOfTwo v := le_nextPowerOfTwo v
  refine ⟨h1, h2, rfl, ?_⟩
  unfold nearestPowerOfTwo
  have hcond : (nextPowerOfTwo v - v ≤ v - previousPowerOfTwo v) ↔
      (|(nextPowerOfTwo v : ℤ) - v| ≤ |(v : ℤ) - previousPowerOfTwo v|) := by
    rw [abs_of_nonneg (by omega : (0:ℤ) ≤ (nextPowerOfTwo v : ℤ) - v),
        abs_of_nonneg (by omega : (0:ℤ) ≤ (v : ℤ) - previousPowerOfTwo v)]
    omega
  by_cases h : nextPowerOfTwo v - v ≤ v - previousPowerOfTwo v
  · rw [if_pos h, if_pos (hcond.mp h)]
  · rw [if_neg h, if_neg (fun hx => h (hcond.mpr hx))]

theorem c6_powerOfTwo_witness :
    previousPowerOfTwo 5 ≤ 5 ∧ 5 ≤ nextPowerOfTwo 5 ∧
    previousPowerOfTwo 5 = nextPowerOfTwo 6 / 2 ∧
    nearestPowerOfTwo 5 =
      (if |(nextPowerOfTwo 5 : ℤ) - 5| ≤ |(5 : ℤ) - previousPowerOfTwo 5|
       then nextPowerOfTwo 5 else previousPowerOfTwo 5) :=
  c6_powerOfTwo_bounds_nearest 5 (by norm_num)

/-- C7: for every input with w > 0, h > 0, d > 0, any maxExtent and any
round mode, getTargetExtent with textureType = Cube produces outputs
satisfying w = h and d = 1. -/
theorem c7_getTargetExtent_cube_square (w h d : ℕ) (maxExtent : ℤ)
    (roundMode : RoundMode) (hw : 0 < w) (hh : 0 < h) (hd : 0 < d) :
    (getTargetExtent w h d maxExtent roundMode TextureType.texCube).1 =
      (getTargetExtent w h d maxExtent roundMode TextureType.texCube).2.1 ∧
    (getTargetExtent w h d maxExtent roundMode TextureType.texCube).2.2 = 1 := by
  cases roundMode <;>
    simp [getTargetExtent, nextPowerOfTwo_one, previousPowerOfTwo_one,
      nearestPowerOfTwo_one]

theorem c7_getTargetExtent_cube_witness :
    (getTargetExtent 6 3 2 17 RoundMode.toNearestPowerOfTwo TextureType.texCube).1 =
      (getTargetExtent 6 3 2 17 RoundMode.toNearestPowerOfTwo TextureType.texCube).2.1 ∧
    (getTargetExtent 6 3 2 17 RoundMode.toNearestPowerOfTwo TextureType.texCube).2.2 = 1 :=
  c7_getTargetExtent_cube_square 6 3 2 17 RoundMode.toNearestPowerOfTwo
    (by norm_num) (by norm_num) (by norm_num)

theorem getD_set_self (l : List TexImagePrivate) (i : ℕ) (a d : TexImagePrivate)
    (h : i < l.length) : (l.set i a).getD i d = a := by
  induction l generalizing i with
  | nil => simp at h
  | cons x xs ih =>
    cases i with
    | zero => rfl
    | succ n =>
      simp only [List.set_cons_succ, List.getD_cons_succ]
      exact ih n (by simpa using h)

theorem getD_append_length (l : List TexImagePrivate) (a d : TexImagePrivate) :
    (l ++ [a]).getD l.length d = a := by
  induction l with
  | nil => rfl
  | cons x xs ih =>
    simp only [List.cons_append, List.length_cons, List.getD_cons_succ]
    exact ih

theorem lt_length_of_image_some (hp : Heap) (i : ℕ) (img : FloatImage)
    (h : (getCell hp i).image = some img) : i < hp.cells.length := by
  by_contra hge
  unfold getCell at h
  rw [List.getD_eq_default _ _ (by omega)] at h
  simp [emptyPrivate] at h

theorem detach_snd_lt (hp : Heap) (i : ℕ) (h : i < hp.cells.length) :
    (detach hp i).2 < (detach hp i).1.cells.length := by
  unfold detach
  by_cases hc : 1 < (getCell hp i).refCount
  · rw [if_pos hc]
    simp [setCell]
  · rw [if_neg hc]
    simpa using h

theorem getCell_detach_image (hp : Heap) (i : ℕ) :
    (getCell (detach hp i).1 (detach hp i).2).image = (getCell hp i).image := by
  unfold detach
  by_cases hc : 1 < (getCell hp i).refCount
  · rw [if_pos hc]
    have hi : i < hp.cells.length := by
      by_contra hge
      unfold getCell at hc
      rw [List.getD_eq_default _ _ (by omega)] at hc
      simp [emptyPrivate] at hc
    show (getCell ⟨(setCell hp i _).cells ++ [_]⟩ (setCell hp i _).cells.length).image = _
    unfold getCell
    rw [getD_append_length]
    show (getCell (setCell hp i _) i).image = _
    unfold getCell setCell
    rw [getD_set_self _ _ _ _ hi]
  · rw [if_neg hc]

theorem getCell_updateImage_self (hp : Heap) (i : ℕ) (img : FloatImage)
    (h : i < hp.cells.length) :
    getCell (updateImage hp i img) i = { getCell hp i with image := some img } := by
  unfold updateImage setCell getCell
  exact getD_set_self _ _ _ _ h

/-- C1: the source's fromYCoCg composed with toYCoCg, evaluated at the
1x1 image with pixel (1, 0, 0, 1).  The result is (7/4, -1/4, -1/4, 1):
channel 0 is off by exactly 3/4, far beyond floating-point tolerance, so
fromYCoCg(toYCoCg(img)) does not return the original image.  (fromYCoCg
applies the standard YCoCg inverse to chroma stored at twice the standard
scale without the compensating factor of 1/2 on the stored scale.) -/
theorem c1_ycocg_roundtrip_fails_eval :
    (fromYCoCg (toYCoCg imgC1)).mem 0 = 7 / 4 ∧
    (fromYCoCg (toYCoCg imgC1)).mem 1 = -(1 / 4) ∧
    (fromYCoCg (toYCoCg imgC1)).mem 2 = -(1 / 4) ∧
    (fromYCoCg (toYCoCg imgC1)).mem 3 = 1 ∧
    imgC1.mem 0 = 1 ∧ imgC1.mem 1 = 0 ∧ imgC1.mem 2 = 0 ∧ imgC1.mem 3 = 1 ∧
    |(fromYCoCg (toYCoCg imgC1)).mem 0 - imgC1.mem 0| = 3 / 4 := by
  refine ⟨?_, ?_, ?_, ?_, ?_, ?_, ?_, ?_, ?_⟩ <;>
    norm_num [fromYCoCg, toYCoCg, imgC1, abs]

/-- C4: copy-on-write isolation is violated.  hpShared holds one Private
(cell 0) shared by two handles A and B (refCount 2).  A calls
copyChannel from the image at cell 1 (srcChannel 0, dstChannel 0): the
call succeeds, A's handle moves to the fresh cell 2, but the memcpy goes
through the image pointer captured before detach, so the still-shared
image at cell 0 — the one handle B observes — changes from 1 to 5 in
channel 0, while A's own detached copy keeps the old value 1. -/
theorem c4_copyOnWrite_violated_eval :
    (copyChannel hpShared 0 1 0 0).1 = true ∧
    (copyChannel hpShared 0 1 0 0).2.2 = 2 ∧
    ((getCell hpShared 0).image.map (fun i => i.mem 0)) = some 1 ∧
    ((getCell (copyChannel hpShared 0 1 0 0).2.1 0).image.map (fun i => i.mem 0)) = some 5 ∧
    ((getCell (copyChannel hpShared 0 1 0 0).2.1 2).image.map (fun i => i.mem 0)) = some 1 := by
  refine ⟨rfl, rfl, rfl, ?_, ?_⟩ <;>
    norm_num [copyChannel, detach, updateImage, getCell, setCell, hpShared, memA, memS]

/-- C8: resize(w, h, ...) with w and h equal to the current extents is a
no-op: the heap (every image sample, all metadata, every refCount) and
the handle are returned unchanged, so nothing is reallocated and no
copy-on-write detach happens. -/
theorem c8_resize_noop (resample : FloatImage → ℕ → ℕ → FloatImage) (hp : Heap)
    (hIdx : ℕ) (w h : ℕ) (img : FloatImage)
    (him : (getCell hp hIdx).image = some img)
    (hw : w = img.width) (hh : h = img.height) :
    resize resample hp hIdx w h = (hp, hIdx) := by
  unfold resize
  rw [him]
  simp [hw, hh]

theorem c8_resize_noop_witness :
    resize (fun i _ _ => i) hpSingle 0 2 3 = (hpSingle, 0) :=
  c8_resize_noop (fun i _ _ => i) hpSingle 0 2 3 ⟨2, 3, fun _ => 0⟩ rfl rfl rfl

/-- C10: whenever copyChannel returns false (channel index outside
[0,3], either image missing, or extents differing), it returns the heap
and the handle unchanged: no sample, no metadata and no refCount has
changed and no copy-on-write detach has occurred. -/
theorem c10_copyChannel_fail_atomic (hp : Heap) (dstIdx srcIdx : ℕ)
    (sc dc : ℤ) (hfail : (copyChannel hp dstIdx srcIdx sc dc).1 = false) :
    copyChannel hp dstIdx srcIdx sc dc = (false, hp, dstIdx) := by
  unfold copyChannel at hfail ⊢
  by_cases h1 : sc < 0 ∨ 3 < sc ∨ dc < 0 ∨ 3 < dc
  · rw [if_pos h1]
  · rw [if_neg h1] at hfail ⊢
    cases hd : (getCell hp dstIdx).image with
    | none => rfl
    | some dst =>
      cases hs : (getCell hp srcIdx).image with
      | none => rfl
      | some src =>
        rw [hd, hs] at hfail
        by_cases h2 : dst.width ≠ src.width ∨ dst.height ≠ src.height
        · exact if_pos h2
        · have hok : (match (some dst : Option FloatImage),
              (some src : Option FloatImage) with
            | some dst, some src =>
              if dst.width ≠ src.width ∨ dst.height ≠ src.height then
                (false, hp, dstIdx)
              else
                let d := detach hp dstIdx
                let count := src.width * src.height
                let dstOff := dc.toNat * count
                let srcOff := sc.toNat * count
                let newDst : FloatImage :=
                  { dst with mem := fun k =>
                      if dstOff ≤ k ∧ k < dstOff + count then
                        src.mem (srcOff + (k - dstOff))
                      else dst.mem k }
                (true, updateImage d.1 dstIdx newDst, d.2)
            | _, _ => (false, hp, dstIdx)).1 = true := by
            rw [show (match (some dst : Option FloatImage),
                (some src : Option FloatImage) with
              | some dst, some src =>
                if dst.width ≠ src.width ∨ dst.height ≠ src.height then
                  (false, hp, dstIdx)
                else
                  let d := detach hp dstIdx
                  let count := src.width * src.height
                  let dstOff := dc.toNat * count
                  let srcOff := sc.toNat * count
                  let newDst : FloatImage :=
                    { dst with mem := fun k =>
                        if dstOff ≤ k ∧ k < dstOff + count then
                          src.mem (srcOff + (k - dstOff))
                        else dst.mem k }
                  (true, updateImage d.1 dstIdx newDst, d.2)
              | _, _ => (false, hp, dstIdx)) =
              if dst.width ≠ src.width ∨ dst.height ≠ src.height then
                (false, hp, dstIdx)
              else
                (true, updateImage (detach hp dstIdx).1 dstIdx _, (detach hp dstIdx).2)
              from rfl, if_neg h2]
          rw [hfail] at hok
          exact Bool.noConfusion hok

theorem c10_copyChannel_fail_witness :
    copyChannel hpShared 0 1 4 0 = (false, hpShared, 0) :=
  c10_copyChannel_fail_atomic hpShared 0 1 4 0 (by decide)

/-- Counterexample to C3 as stated: a non-empty 4x1 image (width 4, so
not at the claimed minimum size of 1x1 in both dimensions), on which
buildNextMipmap nevertheless returns false. -/
theorem c3_buildNextMipmap_counterexample :
    ((getCell hpWide 0).image.map FloatImage.width) = some 4 ∧
    ((getCell hpWide 0).image.map FloatImage.height) = some 1 ∧
    (buildNextMipmap (fun i => i) hpWide 0).1 = false :=
  ⟨rfl, rfl, rfl⟩

/-- C3 (amended): buildNextMipmap returns false, leaving the heap and
handle unchanged, if and only if the handle's image is empty or its
width is 1 or its height is 1 (either dimension, not both); for every
other image it replaces the image by the downsampled one and returns
true. -/
theorem c3_buildNextMipmap_amended (downSample : FloatImage → FloatImage)
    (hp : Heap) (hIdx : ℕ) :
    ((buildNextMipmap downSample hp hIdx).1 = false ↔
      (getCell hp hIdx).image = none ∨
        ∃ img, (getCell hp hIdx).image = some img ∧
          (img.width = 1 ∨ img.height = 1)) ∧
    ((buildNextMipmap downSample hp hIdx).1 = false →
      buildNextMipmap downSample hp hIdx = (false, hp, hIdx)) ∧
    (∀ img, (getCell hp hIdx).image = some img →
      img.width ≠ 1 → img.height ≠ 1 →
      (buildNextMipmap downSample hp hIdx).1 = true ∧
      (getCell (buildNextMipmap downSample hp hIdx).2.1
          (buildNextMipmap downSample hp hIdx).2.2).image =
        some (downSample img)) := by
  cases him : (getCell hp hIdx).image with
  | none =>
    have hred : buildNextMipmap downSample hp hIdx = (false, hp, hIdx) := by
      unfold buildNextMipmap
      rw [him]
    refine ⟨?_, fun _ => hred, ?_⟩
    · rw [hred]
      exact iff_of_true rfl (Or.inl rfl)
    · intro img h
      exact Option.noConfusion h
  | some img =>
    by_cases hdim : img.width = 1 ∨ img.height = 1
    · have hred : buildNextMipmap downSample hp hIdx = (false, hp, hIdx) := by
        unfold buildNextMipmap
        rw [him]
        exact if_pos hdim
      refine ⟨?_, fun _ => hred, ?_⟩
      · rw [hred]
        exact iff_of_true rfl (Or.inr ⟨img, rfl, hdim⟩)
      · intro img2 h2 hw hh
        rw [Option.some_inj] at h2
        subst h2
        rcases hdim with h | h
        · exact absurd h hw
        · exact absurd h hh
    · have hval : hIdx < hp.cells.length := lt_length_of_image_some hp hIdx img him
      have hlt := detach_snd_lt hp hIdx hval
      have hred : buildNextMipmap downSample hp hIdx =
          (true, updateImage (detach hp hIdx).1 (detach hp hIdx).2 (downSample img),
            (detach hp hIdx).2) := by
        unfold buildNextMipmap
        rw [him]
        exact if_neg hdim
      refine ⟨?_, ?_, ?_⟩
      · rw [hred]
        refine iff_of_false (by simp) ?_
        rintro (h | ⟨img2, h2, hd2⟩)
        · exact Option.noConfusion h
        · rw [Option.some_inj] at h2
          subst h2
          exact absurd hd2 hdim
      · intro hcontra
        rw [hred] at hcontra
        simp at hcontra
      · intro img2 h2 hw hh
        rw [Option.some_inj] at h2
        subst h2
        rw [hred]
        exact ⟨rfl, by rw [getCell_updateImage_self _ _ _ hlt]⟩

theorem c3_buildNextMipmap_amended_witness :
    (buildNextMipmap (fun i => i) hpSingle 0).1 = true ∧
    (getCell (buildNextMipmap (fun i => i) hpSingle 0).2.1
        (buildNextMipmap (fun i => i) hpSingle 0).2.2).image =
      some ⟨2, 3, fun _ => 0⟩ :=
  (c3_buildNextMipmap_amended (fun i => i) hpSingle 0).2.2 ⟨2, 3, fun _ => 0⟩
    rfl (by norm_num) (by norm_num)

theorem foldl_fixed (l : List ℕ) (f : ℚ → ℕ → ℚ) (init : ℚ)
    (h : ∀ acc : ℚ, ∀ i ∈ l, f acc i = acc) : l.foldl f init = init := by
  induction l generalizing init with
  | nil => rfl
  | cons a t ih =>
    rw [List.foldl_cons, h init a (List.mem_cons_self a t)]
    exact ih init (fun acc i hi => h acc i (List.mem_cons_of_mem a hi))

/-- C5: rmsError returns the FLT_MAX sentinel when either image is empty
or the two extents differ, and returns exactly 0 (the square root of a
zero mean-squared error) when the two images have the same positive
extents and identical samples on channels 0, 1 and 2. -/
theorem c5_rmsError_sentinel_and_zero (reference image : TexImagePrivate) :
    ((reference.image = none ∨ image.image = none) →
      rmsError reference image = RmsResult.fltMax) ∧
    (∀ ref img, reference.image = some ref → image.image = some img →
      (img.width ≠ ref.width ∨ img.height ≠ ref.height) →
      rmsError reference image = RmsResult.fltMax) ∧
    (∀ ref img, reference.image = some ref → image.image = some img →
      img.width = ref.width → img.height = ref.height →
      0 < img.width * img.height →
      (∀ c, c < 3 → ∀ i, i < img.width * img.height →
        img.mem (i + img.width * img.height * c) =
          ref.mem (i + img.width * img.height * c)) →
      rmsError reference image = RmsResult.sqrtVal 0) := by
  refine ⟨?_, ?_, ?_⟩
  · intro h
    rcases h with h | h
    · cases himg : image.image with
      | none =>
        unfold rmsError
        rw [himg]
      | some img =>
        unfold rmsError
        rw [himg, h]
    · unfold rmsError
      rw [h]
  · intro ref img href himg hdim
    unfold rmsError
    rw [himg, href]
    exact if_pos hdim
  · intro ref img href himg hw hh hpos hmem
    unfold rmsError
    rw [himg, href]
    have hcond : ¬(img.width ≠ ref.width ∨ img.height ≠ ref.height) := by
      push_neg
      exact ⟨hw, hh⟩
    refine Eq.trans (if_neg hcond) ?_
    show RmsResult.sqrtVal _ = RmsResult.sqrtVal 0
    have hmse : (List.range (img.width * img.height)).foldl (fun acc i =>
        let r0 := img.mem (i + img.width * img.height * 0)
        let g0 := img.mem (i + img.width * img.height * 1)
        let b0 := img.mem (i + img.width * img.height * 2)
        let r1 := ref.mem (i + img.width * img.height * 0)
        let g1 := ref.mem (i + img.width * img.height * 1)
        let b1 := ref.mem (i + img.width * img.height * 2)
        let a1 := ref.mem (i + img.width * img.height * 3)
        let r := r0 - r1
        let g := g0 - g1
        let b := b0 - b1
        if reference.alphaMode = AlphaMode.transparency then
          acc + r * r * a1 + g * g * a1 + b * b * a1
        else
          acc + r * r + g * g + b * b) 0 = 0 := by
      apply foldl_fixed
      intro acc i hi
      rw [List.mem_range] at hi
      have h0 := hmem 0 (by norm_num) i hi
      have h1 := hmem 1 (by norm_num) i hi
      have h2 := hmem 2 (by norm_num) i hi
      simp only []
      rw [h0, h1, h2]
      split <;> simp
    rw [hmse, zero_div]

theorem c5_rmsError_witness : rmsError privHalf privHalf = RmsResult.sqrtVal 0 :=
  (c5_rmsError_sentinel_and_zero privHalf privHalf).2.2
    ⟨1, 1, fun _ => 1 / 2⟩ ⟨1, 1, fun _ => 1 / 2⟩ rfl rfl rfl rfl
    (by norm_num) (fun c hc i hi => rfl)

/-- C9: both raw-pixel setImage2D entry points (interleaved and planar)
return true for every InputFormat value; for a value other than
BGRA_8UB, RGBA_16F and RGBA_32F the call still reallocates the handle's
image to a 4-channel w*h image whose storage is exactly the fresh
(uninitialized) allocation — no pixel data is written — and failure is
never reported. -/
theorem c9_setImage2D_always_true (half2float : ℕ → ℚ) (fresh : ℕ → ℚ)
    (hp : Heap) (hIdx : ℕ) (format : ℕ) (w h : ℕ)
    (idata : InterleavedData) (pdata : PlanarData)
    (hvalid : hIdx < hp.cells.length) :
    (setImage2D half2float fresh hp hIdx format w h idata).1 = true ∧
    (setImage2DPlanar half2float fresh hp hIdx format w h pdata).1 = true ∧
    (format ≠ InputFormat_BGRA_8UB → format ≠ InputFormat_RGBA_16F →
      format ≠ InputFormat_RGBA_32F →
      (getCell (setImage2D half2float fresh hp hIdx format w h idata).2.1
          (setImage2D half2float fresh hp hIdx format w h idata).2.2).image =
        some ⟨w, h, fresh⟩ ∧
      (getCell (setImage2DPlanar half2float fresh hp hIdx format w h pdata).2.1
          (setImage2DPlanar half2float fresh hp hIdx format w h pdata).2.2).image =
        some ⟨w, h, fresh⟩) := by
  have hlt := detach_snd_lt hp hIdx hvalid
  refine ⟨rfl, rfl, ?_⟩
  intro h0 h1 h2
  constructor
  · have hred : setImage2D half2float fresh hp hIdx format w h idata =
        (true, updateImage (detach hp hIdx).1 (detach hp hIdx).2 ⟨w, h, fresh⟩,
          (detach hp hIdx).2) := by
      simp only [setImage2D]
      rw [if_neg h0, if_neg h1, if_neg h2]
    rw [hred]
    rw [getCell_updateImage_self _ _ _ hlt]
  · have hred : setImage2DPlanar half2float fresh hp hIdx format w h pdata =
        (true, updateImage (detach hp hIdx).1 (detach hp hIdx).2 ⟨w, h, fresh⟩,
          (detach hp hIdx).2) := by
      simp only [setImage2DPlanar]
      rw [if_neg h0, if_neg h1, if_neg h2]
    rw [hred]
    rw [getCell_updateImage_self _ _ _ hlt]

theorem c9_setImage2D_witness :
    (setImage2D (fun _ => 0) freshZero hpSingle 0 7 2 2 idataZero).1 = true ∧
    (setImage2DPlanar (fun _ => 0) freshZero hpSingle 0 7 2 2 pdataZero).1 = true ∧
    (getCell (setImage2D (fun _ => 0) freshZero hpSingle 0 7 2 2 idataZero).2.1
        (setImage2D (fun _ => 0) freshZero hpSingle 0 7 2 2 idataZero).2.2).image =
      some ⟨2, 2, freshZero⟩ ∧
    (getCell (setImage2DPlanar (fun _ => 0) freshZero hpSingle 0 7 2 2 pdataZero).2.1
        (setImage2DPlanar (fun _ => 0) freshZero hpSingle 0 7 2 2 pdataZero).2.2).image =
      some ⟨2, 2, freshZero⟩ := by
  have T := c9_setImage2D_always_true (fun _ => 0) freshZero hpSingle 0 7 2 2
    idataZero pdataZero (by norm_num [hpSingle])
  have T3 := T.2.2 (by norm_num [InputFormat_BGRA_8UB])
    (by norm_num [InputFormat_RGBA_16F]) (by norm_num [InputFormat_RGBA_32F])
  exact ⟨T.1, T.2.1, T3.1, T3.2⟩

theorem mem_loopPairs (a b : ℕ) (p : ℕ × ℕ) :
    p ∈ loopPairs a b ↔ p.1 < a ∧ p.2 < b := by
  cases p with
  | mk j i => simp [loopPairs]

theorem loopPairs_nodup (a b : ℕ) : (loopPairs a b).Nodup := by
  rw [show loopPairs a b = (List.range a).product (List.range b) from rfl]
  exact List.Nodup.product (List.nodup_range a) (List.nodup_range b)

theorem pixIdx_bound (w h y x : ℕ) (hx : x < w) (hy : y < h) :
    y * w + x < w * h := by
  calc y * w + x < y * w + w := by omega
    _ = (y + 1) * w := by ring
    _ ≤ h * w := Nat.mul_le_mul_right w (by omega)
    _ = w * h := Nat.mul_comm h w

theorem pixIdx_eq (w h c y x : ℕ) :
    pixIdx w h c y x = (y * w + x) + (w * h) * c := by
  unfold pixIdx
  ring

theorem pixIdx_div (w h c y x : ℕ) (hx : x < w) (hy : y < h) :
    pixIdx w h c y x / (w * h) = c := by
  have hwh : 0 < w * h := Nat.mul_pos (by omega) (by omega)
  rw [pixIdx_eq, Nat.add_mul_div_left _ _ hwh,
    Nat.div_eq_of_lt (pixIdx_bound w h y x hx hy)]
  omega

theorem pixIdx_mod (w h c y x : ℕ) (hx : x < w) (hy : y < h) :
    pixIdx w h c y x % (w * h) = y * w + x := by
  rw [pixIdx_eq, Nat.add_mul_mod_self_left,
    Nat.mod_eq_of_lt (pixIdx_bound w h y x hx hy)]

theorem rowIdx_inj (w y x y2 x2 : ℕ) (hx : x < w) (hx2 : x2 < w)
    (heq : y * w + x = y2 * w + x2) : y = y2 ∧ x = x2 := by
  have hw : 0 < w := by omega
  have h1 : (y * w + x) % w = x := by
    rw [Nat.add_comm (y * w) x, Nat.add_mul_mod_self_right, Nat.mod_eq_of_lt hx]
  have h2 : (y2 * w + x2) % w = x2 := by
    rw [Nat.add_comm (y2 * w) x2, Nat.add_mul_mod_self_right, Nat.mod_eq_of_lt hx2]
  have hxx : x = x2 := by rw [← h1, heq, h2]
  refine ⟨?_, hxx⟩
  have hyy : y * w = y2 * w := by omega
  exact Nat.eq_of_mul_eq_mul_right hw hyy

theorem pixIdx_inj (w h : ℕ) {c y x c2 y2 x2 : ℕ} (hx : x < w) (hy : y < h)
    (hx2 : x2 < w) (hy2 : y2 < h)
    (heq : pixIdx w h c y x = pixIdx w h c2 y2 x2) :
    c = c2 ∧ y = y2 ∧ x = x2 := by
  have hc : c = c2 := by
    have hdq := congrArg (fun n => n / (w * h)) heq
    simpa [pixIdx_div w h _ _ _ hx hy, pixIdx_div w h _ _ _ hx2 hy2] using hdq
  have hrow : y * w + x = y2 * w + x2 := by
    have hmq := congrArg (fun n => n % (w * h)) heq
    simpa [pixIdx_mod w h _ _ _ hx hy, pixIdx_mod w h _ _ _ hx2 hy2] using hmq
  obtain ⟨hyy, hxx⟩ := rowIdx_inj w y x y2 x2 hx hx2 hrow
  exact ⟨hc, hyy, hxx⟩

/-- Folding a list of steps over a memory function, where each step a
writes exactly the index set given by W a (pointwise, reading only
indices inside W a), and the write sets of distinct steps are disjoint:
an index written by no step is unchanged, and an index written by step a
holds the value step a would have produced on the initial memory. -/
theorem foldl_local {α : Type} (W : α → ℕ → Bool) (φ : α → ℕ → (ℕ → ℚ) → ℚ)
    (step : (ℕ → ℚ) → α → ℕ → ℚ) (L : List α)
    (hstep : ∀ a ∈ L, ∀ mem k, step mem a k = if W a k then φ a k mem else mem k)
    (hread : ∀ a ∈ L, ∀ k, W a k = true → ∀ mem mem2,
      (∀ j, W a j = true → mem j = mem2 j) → φ a k mem = φ a k mem2)
    (hdisj : L.Pairwise (fun a b => ∀ k, ¬(W a k = true ∧ W b k = true))) :
    ∀ mem k,
      ((∀ a ∈ L, W a k = false) → L.foldl step mem k = mem k) ∧
      (∀ a ∈ L, W a k = true → L.foldl step mem k = φ a k mem) := by
  induction L with
  | nil =>
    intro mem k
    exact ⟨fun _ => rfl, fun a ha => absurd ha (List.not_mem_nil a)⟩
  | cons a t ih =>
    obtain ⟨hda, hdt⟩ := List.pairwise_cons.mp hdisj
    have hstepa := hstep a (List.mem_cons_self a t)
    have hstept : ∀ b ∈ t, ∀ mem k,
        step mem b k = if W b k then φ b k mem else mem k :=
      fun b hb => hstep b (List.mem_cons_of_mem a hb)
    have hreadt : ∀ b ∈ t, ∀ k, W b k = true → ∀ mem mem2,
        (∀ j, W b j = true → mem j = mem2 j) → φ b k mem = φ b k mem2 :=
      fun b hb => hread b (List.mem_cons_of_mem a hb)
    have IH := ih hstept hreadt hdt
    intro mem k
    rw [List.foldl_cons]
    constructor
    · intro hall
      rw [(IH (step mem a) k).1 (fun b hb => hall b (List.mem_cons_of_mem a hb))]
      rw [hstepa mem k, hall a (List.mem_cons_self a t)]
      simp
    · intro b hb hWb
      rcases List.mem_cons.mp hb with rfl | hbt
      · have hothers : ∀ c2 ∈ t, W c2 k = false := by
          intro c2 hc2
          rcases Bool.eq_false_or_eq_true (W c2 k) with ht2 | hf
          · exact absurd ⟨hWb, ht2⟩ (hda c2 hc2 k)
          · exact hf
        rw [(IH (step mem b) k).1 hothers, hstepa mem k, hWb]
        simp
      · have hWa : W a k = false := by
          rcases Bool.eq_false_or_eq_true (W a k) with ht2 | hf
          · exact absurd ⟨ht2, hWb⟩ (hda b hbt k)
          · exact hf
        rw [(IH (step mem a) k).2 b hbt hWb]
        apply hreadt b hbt k hWb
        intro j hWj
        have hWaj : W a j = false := by
          rcases Bool.eq_false_or_eq_true (W a j) with ht2 | hf
          · exact absurd ⟨ht2, hWj⟩ (hda b hbt j)
          · exact hf
        rw [hstepa mem j, hWaj]
        simp

theorem foldl_max2_ge_init {α : Type} (f g : α → ℚ) (l : List α) :
    ∀ init : ℚ, init ≤ l.foldl (fun acc p => max (max acc (f p)) (g p)) init := by
  induction l with
  | nil => intro init; exact le_refl _
  | cons a t ih =>
    intro init
    rw [List.foldl_cons]
    exact le_trans (le_trans (le_max_left _ _) (le_max_left _ _)) (ih _)

theorem foldl_max2_ge_elem {α : Type} (f g : α → ℚ) (l : List α) :
    ∀ p ∈ l, ∀ init : ℚ,
      f p ≤ l.foldl (fun acc q => max (max acc (f q)) (g q)) init ∧
      g p ≤ l.foldl (fun acc q => max (max acc (f q)) (g q)) init := by
  induction l with
  | nil => intro p hp; exact absurd hp (List.not_mem_nil p)
  | cons a t ih =>
    intro p hp init
    rw [List.foldl_cons]
    rcases List.mem_cons.mp hp with rfl | hpt
    · constructor
      · exact le_trans (le_trans (le_max_right _ _) (le_max_left _ _))
          (foldl_max2_ge_init f g t _)
      · exact le_trans (le_max_right _ _) (foldl_max2_ge_init f g t _)
    · exact ih p hpt _

theorem le_quantizeCeil (m : ℚ) (bits e : ℕ) : m ≤ quantizeCeil m bits e := by
  unfold quantizeCeil
  have h2 : (0 : ℚ) < 2 ^ bits := by positivity
  rw [le_div_iff₀ h2]
  exact Int.le_ceil _

theorem scaleBlock_spec (w h : ℕ) (hw4 : w % 4 = 0) (hh4 : h % 4 = 0)
    (bj bi : ℕ) (hbj : bj < h / 4) (hbi : bi < w / 4) (s : ℚ) (mem : ℕ → ℚ) :
    (∀ k, (∀ c, c < 3 → ∀ j, j < 4 → ∀ i, i < 4 →
        k ≠ pixIdx w h c (bj * 4 + j) (bi * 4 + i)) →
      scaleBlock w h mem bj bi s k = mem k) ∧
    (∀ c y x, c < 3 → x < w → y < h → x / 4 = bi → y / 4 = bj →
      scaleBlock w h mem bj bi s (pixIdx w h c y x) =
        if c = 2 then s else mem (pixIdx w h c y x) / s) := by
  have hw : 0 < w := by omega
  have hh : 0 < h := by omega
  have hxlt : ∀ i, i < 4 → bi * 4 + i < w := by intro i hi; omega
  have hylt : ∀ j, j < 4 → bj * 4 + j < h := by intro j hj; omega
  have hminx : ∀ i, i < 4 → min (bi * 4 + i) w = bi * 4 + i := by
    intro i hi
    have := hxlt i hi
    omega
  have hminy : ∀ j, j < 4 → min (bj * 4 + j) h = bj * 4 + j := by
    intro j hj
    have := hylt j hj
    omega
  have hstepPf : ∀ ji ∈ loopPairs 4 4, ∀ (mem2 : ℕ → ℚ) (k : ℕ),
      (fun (mem2 : ℕ → ℚ) (ji : ℕ × ℕ) =>
        let x := min (bi * 4 + ji.2) w
        let y := min (bj * 4 + ji.1) h
        let i0 := pixIdx w h 0 y x
        let i1 := pixIdx w h 1 y x
        let i2 := pixIdx w h 2 y x
        let mem3 := Function.update mem2 i0 (mem2 i0 / s)
        let mem4 := Function.update mem3 i1 (mem3 i1 / s)
        Function.update mem4 i2 s) mem2 ji k =
      if blockWriteSet w h bj bi ji k then blockWriteVal w h bj bi s ji k mem2
      else mem2 k := by
    intro ji hji mem2 k
    obtain ⟨hj4, hi4⟩ := (mem_loopPairs 4 4 ji).mp hji
    simp only [hminx ji.2 hi4, hminy ji.1 hj4]
    have hne01 : pixIdx w h 0 (bj * 4 + ji.1) (bi * 4 + ji.2) ≠
        pixIdx w h 1 (bj * 4 + ji.1) (bi * 4 + ji.2) := by
      intro he
      exact absurd (pixIdx_inj w h (hxlt _ hi4) (hylt _ hj4)
        (hxlt _ hi4) (hylt _ hj4) he).1 (by norm_num)
    have hne02 : pixIdx w h 0 (bj * 4 + ji.1) (bi * 4 + ji.2) ≠
        pixIdx w h 2 (bj * 4 + ji.1) (bi * 4 + ji.2) := by
      intro he
      exact absurd (pixIdx_inj w h (hxlt _ hi4) (hylt _ hj4)
        (hxlt _ hi4) (hylt _ hj4) he).1 (by norm_num)
    have hne12 : pixIdx w h 1 (bj * 4 + ji.1) (bi * 4 + ji.2) ≠
        pixIdx w h 2 (bj * 4 + ji.1) (bi * 4 + ji.2) := by
      intro he
      exact absurd (pixIdx_inj w h (hxlt _ hi4) (hylt _ hj4)
        (hxlt _ hi4) (hylt _ hj4) he).1 (by norm_num)
    unfold blockWriteSet blockWriteVal
    by_cases h2 : k = pixIdx w h 2 (bj * 4 + ji.1) (bi * 4 + ji.2)
    · subst h2
      simp [Function.update_apply, hminx ji.2 hi4, hminy ji.1 hj4,
        hne01, hne02, hne12, hne01.symm, hne02.symm, hne12.symm]
    · by_cases h1 : k = pixIdx w h 1 (bj * 4 + ji.1) (bi * 4 + ji.2)
      · subst h1
        simp [Function.update_apply, hminx ji.2 hi4, hminy ji.1 hj4,
          hne01, hne02, hne12, hne01.symm, hne02.symm, hne12.symm, h2]
      · by_cases h0 : k = pixIdx w h 0 (bj * 4 + ji.1) (bi * 4 + ji.2)
        · subst h0
          simp [Function.update_apply, hminx ji.2 hi4, hminy ji.1 hj4,
            hne01, hne02, hne12, hne01.symm, hne02.symm, hne12.symm]
        · simp [Function.update_apply, hminx ji.2 hi4, hminy ji.1 hj4, h0, h1, h2]
  have hreadPf : ∀ ji ∈ loopPairs 4 4, ∀ k,
      blockWriteSet w h bj bi ji k = true → ∀ (mem2 mem3 : ℕ → ℚ),
      (∀ j, blockWriteSet w h bj bi ji j = true → mem2 j = mem3 j) →
      blockWriteVal w h bj bi s ji k mem2 = blockWriteVal w h bj bi s ji k mem3 := by
    intro ji hji k hWk mem2 mem3 hag
    unfold blockWriteVal
    by_cases h2 : k = pixIdx w h 2 (bj * 4 + ji.1) (bi * 4 + ji.2)
    · simp [h2]
    · rw [if_neg h2, if_neg h2, hag k hWk]
  have hdisjPf : (loopPairs 4 4).Pairwise (fun a b => ∀ k,
      ¬(blockWriteSet w h bj bi a k = true ∧ blockWriteSet w h bj bi b k = true)) := by
    refine List.Pairwise.imp_of_mem ?_ (loopPairs_nodup 4 4)
    intro p q hp hq hpq k hand
    obtain ⟨hWp, hWq⟩ := hand
    obtain ⟨hp1, hp2⟩ := (mem_loopPairs 4 4 p).mp hp
    obtain ⟨hq1, hq2⟩ := (mem_loopPairs 4 4 q).mp hq
    unfold blockWriteSet at hWp hWq
    simp only [decide_eq_true_eq] at hWp hWq
    have key : ∀ c1 c2 : ℕ, k = pixIdx w h c1 (bj * 4 + p.1) (bi * 4 + p.2) →
        k = pixIdx w h c2 (bj * 4 + q.1) (bi * 4 + q.2) → p = q := by
      intro c1 c2 e1 e2
      obtain ⟨hcc, hyy, hxx⟩ := pixIdx_inj w h (hxlt _ hp2) (hylt _ hp1)
        (hxlt _ hq2) (hylt _ hq1) (e1.symm.trans e2)
      have ha : p.1 = q.1 := by omega
      have hb : p.2 = q.2 := by omega
      exact Prod.ext_iff.mpr ⟨ha, hb⟩
    rcases hWp with e1 | e1 | e1 <;> rcases hWq with e2 | e2 | e2 <;>
      exact hpq (key _ _ e1 e2)
  have main := foldl_local (blockWriteSet w h bj bi) (blockWriteVal w h bj bi s)
    (fun (mem2 : ℕ → ℚ) (ji : ℕ × ℕ) =>
      let x := min (bi * 4 + ji.2) w
      let y := min (bj * 4 + ji.1) h
      let i0 := pixIdx w h 0 y x
      let i1 := pixIdx w h 1 y x
      let i2 := pixIdx w h 2 y x
      let mem3 := Function.update mem2 i0 (mem2 i0 / s)
      let mem4 := Function.update mem3 i1 (mem3 i1 / s)
      Function.update mem4 i2 s)
    (loopPairs 4 4) hstepPf hreadPf hdisjPf
  constructor
  · intro k hk
    refine (main mem k).1 ?_
    intro ji hji
    obtain ⟨hj4, hi4⟩ := (mem_loopPairs 4 4 ji).mp hji
    rcases Bool.eq_false_or_eq_true (blockWriteSet w h bj bi ji k) with ht | hf
    · exfalso
      unfold blockWriteSet at ht
      simp only [decide_eq_true_eq] at ht
      rcases ht with e | e | e
      · exact hk 0 (by norm_num) ji.1 hj4 ji.2 hi4 e
      · exact hk 1 (by norm_num) ji.1 hj4 ji.2 hi4 e
      · exact hk 2 (by norm_num) ji.1 hj4 ji.2 hi4 e
    · exact hf
  · intro c y x hc hx hy hbx hby
    have hj4 : y % 4 < 4 := Nat.mod_lt _ (by norm_num)
    have hi4 : x % 4 < 4 := Nat.mod_lt _ (by norm_num)
    have hmem : ((y % 4, x % 4) : ℕ × ℕ) ∈ loopPairs 4 4 :=
      (mem_loopPairs 4 4 _).mpr ⟨hj4, hi4⟩
    have hyeq : bj * 4 + y % 4 = y := by omega
    have hxeq : bi * 4 + x % 4 = x := by omega
    have hW : blockWriteSet w h bj bi (y % 4, x % 4) (pixIdx w h c y x) = true := by
      unfold blockWriteSet
      simp only [decide_eq_true_eq, hyeq, hxeq]
      have hcc : c = 0 ∨ c = 1 ∨ c = 2 := by omega
      rcases hcc with rfl | rfl | rfl
      · exact Or.inl rfl
      · exact Or.inr (Or.inl rfl)
      · exact Or.inr (Or.inr rfl)
    refine Eq.trans ((main mem (pixIdx w h c y x)).2 (y % 4, x % 4) hmem hW) ?_
    unfold blockWriteVal
    simp only [hyeq, hxeq]
    by_cases hc2 : c = 2
    · subst hc2
      simp
    · rw [if_neg ?_, if_neg hc2]
      intro he
      exact hc2 (pixIdx_inj w h hx hy hx hy he).1

theorem blockM_bounds (w h : ℕ) (hw4 : w % 4 = 0) (hh4 : h % 4 = 0)
    (bj bi : ℕ) (hbj : bj < h / 4) (hbi : bi < w / 4) (mem : ℕ → ℚ) :
    1 / 256 ≤ blockM w h mem bj bi ∧
    ∀ j, j < 4 → ∀ i, i < 4 →
      |mem (pixIdx w h 0 (bj * 4 + j) (bi * 4 + i))| ≤ blockM w h mem bj bi ∧
      |mem (pixIdx w h 1 (bj * 4 + j) (bi * 4 + i))| ≤ blockM w h mem bj bi := by
  constructor
  · unfold blockM
    exact foldl_max2_ge_init
      (fun ji => |mem (pixIdx w h 0 (min (bj * 4 + ji.1) h) (min (bi * 4 + ji.2) w))|)
      (fun ji => |mem (pixIdx w h 1 (min (bj * 4 + ji.1) h) (min (bi * 4 + ji.2) w))|)
      (loopPairs 4 4) (1 / 256)
  · intro j hj i hi
    have hp : ((j, i) : ℕ × ℕ) ∈ loopPairs 4 4 := (mem_loopPairs 4 4 _).mpr ⟨hj, hi⟩
    have he := foldl_max2_ge_elem
      (fun ji => |mem (pixIdx w h 0 (min (bj * 4 + ji.1) h) (min (bi * 4 + ji.2) w))|)
      (fun ji => |mem (pixIdx w h 1 (min (bj * 4 + ji.1) h) (min (bi * 4 + ji.2) w))|)
      (loopPairs 4 4) (j, i) hp (1 / 256)
    have hminx : min (bi * 4 + i) w = bi * 4 + i := by omega
    have hminy : min (bj * 4 + j) h = bj * 4 + j := by omega
    simp only [hminx, hminy] at he
    unfold blockM
    exact he

theorem blockM_congr (w h : ℕ) (hw4 : w % 4 = 0) (hh4 : h % 4 = 0)
    (bj bi : ℕ) (hbj : bj < h / 4) (hbi : bi < w / 4) (mem mem2 : ℕ → ℚ)
    (hag : ∀ c, c < 2 → ∀ j, j < 4 → ∀ i, i < 4 →
      mem (pixIdx w h c (bj * 4 + j) (bi * 4 + i)) =
        mem2 (pixIdx w h c (bj * 4 + j) (bi * 4 + i))) :
    blockM w h mem bj bi = blockM w h mem2 bj bi := by
  unfold blockM
  apply List.foldl_ext
  intro acc ji hji
  obtain ⟨hj4, hi4⟩ := (mem_loopPairs 4 4 ji).mp hji
  have hminx : min (bi * 4 + ji.2) w = bi * 4 + ji.2 := by omega
  have hminy : min (bj * 4 + ji.1) h = bj * 4 + ji.1 := by omega
  simp only [hminx, hminy, hag 0 (by norm_num) ji.1 hj4 ji.2 hi4,
    hag 1 (by norm_num) ji.1 hj4 ji.2 hi4]

theorem blockSet_iff (w h : ℕ) (b : ℕ × ℕ) (k : ℕ) :
    blockSet w h b k = true ↔
      ∃ c, c < 3 ∧ ∃ j, j < 4 ∧ ∃ i, i < 4 ∧
        k = pixIdx w h c (b.1 * 4 + j) (b.2 * 4 + i) := by
  unfold blockSet
  simp [List.any_eq_true, List.mem_range]


theorem blockScaleCoCg_eval (img : FloatImage) (bits : ℕ) (t : ℚ)
    (hw4 : img.width % 4 = 0) (hh4 : img.height % 4 = 0)
    (hw : 0 < img.width) (hh : 0 < img.height)
    (c y x : ℕ) (hc : c < 3) (hx : x < img.width) (hy : y < img.height) :
    (blockScaleCoCg img bits t).mem (pixIdx img.width img.height c y x) =
      blockVal img.width img.height bits (y / 4, x / 4)
        (pixIdx img.width img.height c y x) img.mem := by
  set w := img.width with hwdef
  set h := img.height with hhdef
  have hbw : max 1 (w / 4) = w / 4 := by omega
  have hbh : max 1 (h / 4) = h / 4 := by omega
  have hstepPf : ∀ b ∈ loopPairs (h / 4) (w / 4), ∀ (mem : ℕ → ℚ) (k : ℕ),
      (fun (mem : ℕ → ℚ) (bjbi : ℕ × ℕ) =>
        let m := blockM w h mem bjbi.1 bjbi.2
        let scale := quantizeCeil m bits 8
        scaleBlock w h mem bjbi.1 bjbi.2 scale) mem b k =
      if blockSet w h b k then blockVal w h bits b k mem else mem k := by
    intro b hb mem k
    obtain ⟨hb1, hb2⟩ := (mem_loopPairs _ _ b).mp hb
    obtain ⟨spec1, spec2⟩ := scaleBlock_spec w h hw4 hh4 b.1 b.2 hb1 hb2
      (quantizeCeil (blockM w h mem b.1 b.2) bits 8) mem
    rcases Bool.eq_false_or_eq_true (blockSet w h b k) with hT | hF
    · rw [if_pos hT]
      obtain ⟨c2, hc2, j, hj, i, hi, hkeq⟩ := (blockSet_iff w h b k).mp hT
      subst hkeq
      have hxw : b.2 * 4 + i < w := by omega
      have hyh : b.1 * 4 + j < h := by omega
      have hs2 := spec2 c2 (b.1 * 4 + j) (b.2 * 4 + i) hc2 hxw hyh
        (by omega) (by omega)
      refine Eq.trans hs2 ?_
      unfold blockVal
      rw [pixIdx_div w h c2 _ _ hxw hyh]
    · have hFprop : ¬(blockSet w h b k = true) := by simp [hF]
      rw [if_neg hFprop]
      refine spec1 k ?_
      intro c3 hc3 j hj i hi he
      exact absurd ((blockSet_iff w h b k).mpr ⟨c3, hc3, j, hj, i, hi, he⟩) hFprop
  have hreadPf : ∀ b ∈ loopPairs (h / 4) (w / 4), ∀ k,
      blockSet w h b k = true → ∀ (mem mem2 : ℕ → ℚ),
      (∀ j, blockSet w h b j = true → mem j = mem2 j) →
      blockVal w h bits b k mem = blockVal w h bits b k mem2 := by
    intro b hb k hWk mem mem2 hag
    obtain ⟨hb1, hb2⟩ := (mem_loopPairs _ _ b).mp hb
    have hbm : blockM w h mem b.1 b.2 = blockM w h mem2 b.1 b.2 := by
      refine blockM_congr w h hw4 hh4 b.1 b.2 hb1 hb2 mem mem2 ?_
      intro c3 hc3 j hj i hi
      exact hag _ ((blockSet_iff w h b _).mpr ⟨c3, by omega, j, hj, i, hi, rfl⟩)
    unfold blockVal
    rw [hbm, hag k hWk]
  have hdisjPf : (loopPairs (h / 4) (w / 4)).Pairwise (fun a b => ∀ k,
      ¬(blockSet w h a k = true ∧ blockSet w h b k = true)) := by
    refine List.Pairwise.imp_of_mem ?_ (loopPairs_nodup (h / 4) (w / 4))
    intro p q hp hq hpq k hand
    obtain ⟨hWp, hWq⟩ := hand
    obtain ⟨hp1, hp2⟩ := (mem_loopPairs _ _ p).mp hp
    obtain ⟨hq1, hq2⟩ := (mem_loopPairs _ _ q).mp hq
    obtain ⟨c1, hc1, j1, hj1, i1, hi1, e1⟩ := (blockSet_iff w h p k).mp hWp
    obtain ⟨c2a, hc2a, j2, hj2, i2, hi2, e2⟩ := (blockSet_iff w h q k).mp hWq
    have hx1 : p.2 * 4 + i1 < w := by omega
    have hy1 : p.1 * 4 + j1 < h := by omega
    have hx2 : q.2 * 4 + i2 < w := by omega
    have hy2 : q.1 * 4 + j2 < h := by omega
    obtain ⟨hcc, hyy, hxx⟩ := pixIdx_inj w h hx1 hy1 hx2 hy2 (e1.symm.trans e2)
    have ha : p.1 = q.1 := by omega
    have hb2v : p.2 = q.2 := by omega
    exact hpq (Prod.ext_iff.mpr ⟨ha, hb2v⟩)
  have main := foldl_local (blockSet w h) (blockVal w h bits)
    (fun (mem : ℕ → ℚ) (bjbi : ℕ × ℕ) =>
      let m := blockM w h mem bjbi.1 bjbi.2
      let scale := quantizeCeil m bits 8
      scaleBlock w h mem bjbi.1 bjbi.2 scale)
    (loopPairs (h / 4) (w / 4)) hstepPf hreadPf hdisjPf
  have hbmem : ((y / 4, x / 4) : ℕ × ℕ) ∈ loopPairs (h / 4) (w / 4) :=
    (mem_loopPairs _ _ _).mpr ⟨by omega, by omega⟩
  have hWtrue : blockSet w h (y / 4, x / 4) (pixIdx w h c y x) = true := by
    refine (blockSet_iff w h _ _).mpr ⟨c, hc, y % 4, Nat.mod_lt _ (by norm_num),
      x % 4, Nat.mod_lt _ (by norm_num), ?_⟩
    show pixIdx w h c y x = pixIdx w h c (y / 4 * 4 + y % 4) (x / 4 * 4 + x % 4)
    rw [show y / 4 * 4 + y % 4 = y by omega, show x / 4 * 4 + x % 4 = x by omega]
  have hfold : (blockScaleCoCg img bits t).mem =
      (loopPairs (h / 4) (w / 4)).foldl
        (fun (mem : ℕ → ℚ) (bjbi : ℕ × ℕ) =>
          let m := blockM w h mem bjbi.1 bjbi.2
          let scale := quantizeCeil m bits 8
          scaleBlock w h mem bjbi.1 bjbi.2 scale) img.mem := by
    unfold blockScaleCoCg
    simp only [← hwdef, ← hhdef, hbw, hbh]
  rw [hfold]
  exact (main img.mem (pixIdx w h c y x)).2 (y / 4, x / 4) hbmem hWtrue

/-- C2 (amended): for every non-empty 4-channel image whose width and
height are positive multiples of 4 (so that the source's loop over
max(1, w/4) x max(1, h/4) blocks covers the image exactly), after
blockScaleCoCg(bits = 5, threshold = 0) every sample of channel 0 (Co)
and channel 1 (Cg) satisfies |value| <= 1; the per-block scale stored in
channel 2 is at least 1/256; and that stored scale never
under-represents the block's true maximum chroma magnitude: the pre-call
|Co| and |Cg| of every pixel of the same 4x4 block are bounded by it. -/
theorem c2_blockScaleCoCg_amended (img : FloatImage)
    (hw4 : img.width % 4 = 0) (hh4 : img.height % 4 = 0)
    (hw : 0 < img.width) (hh : 0 < img.height)
    (x y : ℕ) (hx : x < img.width) (hy : y < img.height) :
    |(blockScaleCoCg img 5 0).pixel x y 0| ≤ 1 ∧
    |(blockScaleCoCg img 5 0).pixel x y 1| ≤ 1 ∧
    1 / 256 ≤ (blockScaleCoCg img 5 0).pixel x y 2 ∧
    (∀ x2 y2, x2 < img.width → y2 < img.height → x2 / 4 = x / 4 →
      y2 / 4 = y / 4 →
      |img.pixel x2 y2 0| ≤ (blockScaleCoCg img 5 0).pixel x y 2 ∧
      |img.pixel x2 y2 1| ≤ (blockScaleCoCg img 5 0).pixel x y 2) := by
  have hbj : y / 4 < img.height / 4 := by omega
  have hbi : x / 4 < img.width / 4 := by omega
  obtain ⟨hminit, hmelem⟩ := blockM_bounds img.width img.height hw4 hh4
    (y / 4) (x / 4) hbj hbi img.mem
  have hqle : blockM img.width img.height img.mem (y / 4) (x / 4) ≤
      quantizeCeil (blockM img.width img.height img.mem (y / 4) (x / 4)) 5 8 :=
    le_quantizeCeil _ 5 8
  have hq256 : (1 : ℚ) / 256 ≤
      quantizeCeil (blockM img.width img.height img.mem (y / 4) (x / 4)) 5 8 :=
    le_trans hminit hqle
  have hqpos : 0 <
      quantizeCeil (blockM img.width img.height img.mem (y / 4) (x / 4)) 5 8 := by
    have h256 : (0 : ℚ) < 1 / 256 := by norm_num
    linarith
  have h0 := blockScaleCoCg_eval img 5 0 hw4 hh4 hw hh 0 y x (by norm_num) hx hy
  have h1 := blockScaleCoCg_eval img 5 0 hw4 hh4 hw hh 1 y x (by norm_num) hx hy
  have h2 := blockScaleCoCg_eval img 5 0 hw4 hh4 hw hh 2 y x (by norm_num) hx hy
  have hv0 : blockVal img.width img.height 5 (y / 4, x / 4)
      (pixIdx img.width img.height 0 y x) img.mem =
      img.mem (pixIdx img.width img.height 0 y x) /
        quantizeCeil (blockM img.width img.height img.mem (y / 4) (x / 4)) 5 8 := by
    unfold blockVal
    rw [pixIdx_div _ _ _ _ _ hx hy]
    norm_num
  have hv1 : blockVal img.width img.height 5 (y / 4, x / 4)
      (pixIdx img.width img.height 1 y x) img.mem =
      img.mem (pixIdx img.width img.height 1 y x) /
        quantizeCeil (blockM img.width img.height img.mem (y / 4) (x / 4)) 5 8 := by
    unfold blockVal
    rw [pixIdx_div _ _ _ _ _ hx hy]
    norm_num
  have hv2 : blockVal img.width img.height 5 (y / 4, x / 4)
      (pixIdx img.width img.height 2 y x) img.mem =
      quantizeCeil (blockM img.width img.height img.mem (y / 4) (x / 4)) 5 8 := by
    unfold blockVal
    rw [pixIdx_div _ _ _ _ _ hx hy]
    norm_num
  have hgen : ∀ x2 y2, x2 < img.width → y2 < img.height → x2 / 4 = x / 4 →
      y2 / 4 = y / 4 →
      |img.mem (pixIdx img.width img.height 0 y2 x2)| ≤
        blockM img.width img.height img.mem (y / 4) (x / 4) ∧
      |img.mem (pixIdx img.width img.height 1 y2 x2)| ≤
        blockM img.width img.height img.mem (y / 4) (x / 4) := by
    intro x2 y2 hx2 hy2 hdx hdy
    have hme := hmelem (y2 % 4) (Nat.mod_lt _ (by norm_num))
      (x2 % 4) (Nat.mod_lt _ (by norm_num))
    rwa [show y / 4 * 4 + y2 % 4 = y2 from by omega,
         show x / 4 * 4 + x2 % 4 = x2 from by omega] at hme
  refine ⟨?_, ?_, ?_, ?_⟩
  · show |(blockScaleCoCg img 5 0).mem (pixIdx img.width img.height 0 y x)| ≤ 1
    rw [h0, hv0, abs_div, abs_of_pos hqpos, div_le_one hqpos]
    exact le_trans (hgen x y hx hy rfl rfl).1 hqle
  · show |(blockScaleCoCg img 5 0).mem (pixIdx img.width img.height 1 y x)| ≤ 1
    rw [h1, hv1, abs_div, abs_of_pos hqpos, div_le_one hqpos]
    exact le_trans (hgen x y hx hy rfl rfl).2 hqle
  · show (1 : ℚ) / 256 ≤ (blockScaleCoCg img 5 0).mem (pixIdx img.width img.height 2 y x)
    rw [h2, hv2]
    exact hq256
  · intro x2 y2 hx2 hy2 hdx hdy
    constructor
    · show |img.mem (pixIdx img.width img.height 0 y2 x2)| ≤
        (blockScaleCoCg img 5 0).mem (pixIdx img.width img.height 2 y x)
      rw [h2, hv2]
      exact le_trans (hgen x2 y2 hx2 hy2 hdx hdy).1 hqle
    · show |img.mem (pixIdx img.width img.height 1 y2 x2)| ≤
        (blockScaleCoCg img 5 0).mem (pixIdx img.width img.height 2 y x)
      rw [h2, hv2]
      exact le_trans (hgen x2 y2 hx2 hy2 hdx hdy).2 hqle

theorem c2_blockScaleCoCg_amended_witness :
    |(blockScaleCoCg imgFour 5 0).pixel 1 2 0| ≤ 1 ∧
    |(blockScaleCoCg imgFour 5 0).pixel 1 2 1| ≤ 1 ∧
    1 / 256 ≤ (blockScaleCoCg imgFour 5 0).pixel 1 2 2 ∧
    |imgFour.pixel 2 3 0| ≤ (blockScaleCoCg imgFour 5 0).pixel 1 2 2 := by
  have T := c2_blockScaleCoCg_amended imgFour (by norm_num [imgFour])
    (by norm_num [imgFour]) (by norm_num [imgFour]) (by norm_num [imgFour])
    1 2 (by norm_num [imgFour]) (by norm_num [imgFour])
  exact ⟨T.1, T.2.1, T.2.2.1,
    (T.2.2.2 2 3 (by norm_num [imgFour]) (by norm_num [imgFour])
      (by norm_num) (by norm_num)).1⟩

/-- Counterexample to C2 as stated: on the non-empty 5x4 image
imgPartial, whose channel-0 sample at pixel (4, 0) is 2, the pixel
(4, 0) lies in the partial right-edge 4x4 block, which the source's
loop over max(1, w/4) = 1 block columns never processes; after
blockScaleCoCg(5, 0) the sample is still 2, so a sample of channel 0 in
a 4x4 block of the image has |value| > 1 (and the block's channel 2
holds no valid scale either). -/
theorem c2_blockScaleCoCg_counterexample :
    imgPartial.width = 5 ∧ imgPartial.height = 4 ∧
    (blockScaleCoCg imgPartial 5 0).pixel 4 0 0 = 2 ∧
    ¬(|(blockScaleCoCg imgPartial 5 0).pixel 4 0 0| ≤ 1) := by
  have hone : blockScaleCoCg imgPartial 5 0 =
      { imgPartial with
        mem := (scaleBlock 5 4 imgPartial.mem 0 0
          (quantizeCeil (blockM 5 4 imgPartial.mem 0 0) 5 8)) } := by
    simp [blockScaleCoCg, loopPairs, List.range_succ, imgPartial]
  have hsb : ∀ s : ℚ, scaleBlock 5 4 imgPartial.mem 0 0 s 4 = 2 := by
    intro s
    norm_num [scaleBlock, loopPairs, pixIdx, Function.update_apply,
      List.range_succ, imgPartial]
  have hev : (blockScaleCoCg imgPartial 5 0).pixel 4 0 0 = 2 := by
    rw [hone]
    show scaleBlock 5 4 imgPartial.mem 0 0
      (quantizeCeil (blockM 5 4 imgPartial.mem 0 0) 5 8) 4 = 2
    exact hsb _
  refine ⟨rfl, rfl, hev, ?_⟩
  rw [hev]
  rw [show |(2 : ℚ)| = 2 from abs_of_nonneg (by norm_num)]
  norm_num
